import Mathlib

/-!
Verification development for `osmborder_filter` (src/src/osmborder_filter.cpp).

The development shallowly embeds the program: entity records become
structures, the three-pass pipeline of `main` becomes pure functions over
lists, the `std::vector` merge-join cursors become natural-number indices,
and a dereference of the one-past-the-end position of a target list (which
the C++ code can perform, since `*first` is evaluated before the
`first != last` test) is modelled by returning `none`.

External collaborators are embedded at their interface:
the nlohmann JSON document tree (`json.hpp`, not under src/) is modelled
from the spec's override-document interface as an inductive tree whose
objects are key-sorted association lists, with accessors (`find`,
`operator[]`, `get<long>`, `get<bool>`, `is_string`) following the spec's
description of the configuration document; `std::map<std::string,std::string>`
becomes a key-sorted association list with replacing insert; libosmium's
`TagListBuilder::add_tag` appends a tag pair, and `TagList::has_tag(k,v)`
compares `v` against the value of the first tag whose key is `k`.
-/

namespace Osmborder

/-- osmium item_type, as far as relation members distinguish it. -/
inductive ItemType : Type where
  | node : ItemType
  | way : ItemType
  | relation : ItemType
deriving DecidableEq

/-- A tag list: ordered key/value string pairs (osmium TagList). -/
abbrev Tags : Type := List (String × String)

/-- osmium Relation: id, tags, ordered member (kind, ref) pairs. -/
structure Relation : Type where
  id : Int
  tags : Tags
  members : List (ItemType × Int)
deriving DecidableEq

/-- osmium Way: id, tags, ordered node reference list. -/
structure Way : Type where
  id : Int
  tags : Tags
  nodes : List Int
deriving DecidableEq

/-- osmium Node: id, tags, location (fixed-precision coordinate pair). -/
structure Node : Type where
  id : Int
  tags : Tags
  location : Int × Int
deriving DecidableEq

/-- std::map of string to string: modelled as a key-sorted association
list; `mapInsert` keeps it sorted and replaces an existing key. -/
abbrev Strmap : Type := List (String × String)

/-- idset = std::unordered_set of object ids: membership function. -/
abbrev Idset : Type := Int → Bool

/-- idmap = std::unordered_map from object id to Strmap: lookup function. -/
abbrev Idmap : Type := Int → Option Strmap

/-- The empty idset. -/
def emptyIdset : Idset := fun _ => false

/-- The empty idmap. -/
def emptyIdmap : Idmap := fun _ => none

/-- unordered_set::insert. -/
def insertIdset (s : Idset) (k : Int) : Idset := fun x => if x = k then true else s x

/-- unordered_map assignment `m[k] = v` (replaces any previous mapping). -/
def insertIdmap (m : Idmap) (k : Int) (v : Strmap) : Idmap :=
  fun x => if x = k then some v else m x

/-- std::map insert-or-assign `m[k] = v`: keeps the association list
sorted by key and replaces the entry of an existing key. -/
def mapInsert : Strmap → String → String → Strmap
  | [], k, v => [(k, v)]
  | (k1, v1) :: rest, k, v =>
    if k < k1 then (k, v) :: (k1, v1) :: rest
    else if k = k1 then (k, v) :: rest
    else (k1, v1) :: mapInsert rest k v

/-- Modelled from the spec: the parsed nlohmann JSON document tree
(`json.hpp` is not under src/). Objects carry their fields as the
key-sorted association list the library iterates over; numbers are the
integral identifiers the spec's interface section describes. -/
inductive Json : Type where
  | null : Json
  | bool (b : Bool) : Json
  | num (n : Int) : Json
  | str (s : String) : Json
  | arr (elems : List Json) : Json
  | obj (fields : List (String × Json)) : Json

/-- json object `find`: first field with the given key. -/
def jsonFind : List (String × Json) → String → Option Json
  | [], _ => none
  | (k1, v) :: rest, k => if k1 = k then some v else jsonFind rest k

/-- json `get<long>`: succeeds on a number, throws (`error`) otherwise. -/
def getLong : Json → Except Unit Int
  | Json.num n => Except.ok n
  | _ => Except.error ()

/-- json `get<bool>`: succeeds on a boolean, throws otherwise. -/
def getBool : Json → Except Unit Bool
  | Json.bool b => Except.ok b
  | _ => Except.error ()

/-- json `operator[]` with a string key on the whole document: field
lookup on an object (absent key gives null), null on a null document,
throws a type error on any other document kind. -/
def jsonIndexOp : Json → String → Except Unit Json
  | Json.obj fields, k => Except.ok ((jsonFind fields k).getD Json.null)
  | Json.null, _ => Except.ok Json.null
  | _, _ => Except.error ()

/-- The inner loop of jsonize's "ways" section: fold the entry's fields
into the std::map `smap`, keeping every string-valued field other than
"osm_id" (`if (jt.key()!="osm_id" && jt->is_string())`). -/
def smapFold : Strmap → List (String × Json) → Strmap
  | m, [] => m
  | m, (k, j) :: rest =>
    smapFold (match j with
      | Json.str s => if k = "osm_id" then m else mapInsert m k s
      | _ => m) rest

/-- The keys of the fields a "ways" entry contributes to its override
record: string-valued fields other than "osm_id". -/
def stringFieldKeys (fields : List (String × Json)) : List String :=
  fields.filterMap (fun kv => match kv.2 with
    | Json.str _ => if kv.1 = "osm_id" then none else some kv.1
    | _ => none)

/-- The override record built from one "ways" entry's fields. -/
def smapOfFields (fields : List (String × Json)) : Strmap :=
  smapFold [] fields

/-- One entry of the "ways" array: skip non-objects and objects without
an "osm_id" field; otherwise build `smap` and assign
`waymap[osm_id.get<long>()] = smap` (the get may throw). -/
def processWayEntry (e : Json) (wm : Idmap) : Except Unit Idmap :=
  match e with
  | Json.obj fields =>
    match jsonFind fields "osm_id" with
    | none => Except.ok wm
    | some osmId =>
      match getLong osmId with
      | Except.error u => Except.error u
      | Except.ok n => Except.ok (insertIdmap wm n (smapOfFields fields))
  | _ => Except.ok wm

/-- The loop over the "ways" array. -/
def processWays : List Json → Idmap → Except Unit Idmap
  | [], wm => Except.ok wm
  | e :: rest, wm =>
    match processWayEntry e wm with
    | Except.error u => Except.error u
    | Except.ok wm2 => processWays rest wm2

/-- One entry of the "relations" array: skip non-objects and objects
without "osm_id"; a true "whitelist" boolean inserts the id into
`yesborder`, a true "blacklist" boolean inserts it into `noborder`
(each `get<bool>` and `get<long>` may throw). -/
def processRelEntry (e : Json) (yes no : Idset) : Except Unit (Idset × Idset) :=
  match e with
  | Json.obj fields =>
    match jsonFind fields "osm_id" with
    | none => Except.ok (yes, no)
    | some osmId =>
      let stepWt : Except Unit Idset :=
        match jsonFind fields "whitelist" with
        | none => Except.ok yes
        | some w =>
          match getBool w with
          | Except.error u => Except.error u
          | Except.ok b =>
            if b then
              match getLong osmId with
              | Except.error u => Except.error u
              | Except.ok n => Except.ok (insertIdset yes n)
            else Except.ok yes
      match stepWt with
      | Except.error u => Except.error u
      | Except.ok yes2 =>
        match jsonFind fields "blacklist" with
        | none => Except.ok (yes2, no)
        | some w =>
          match getBool w with
          | Except.error u => Except.error u
          | Except.ok b =>
            if b then
              match getLong osmId with
              | Except.error u => Except.error u
              | Except.ok n => Except.ok (yes2, insertIdset no n)
            else Except.ok (yes2, no)
  | _ => Except.ok (yes, no)

/-- The loop over the "relations" array. -/
def processRelations : List Json → Idset → Idset → Except Unit (Idset × Idset)
  | [], yes, no => Except.ok (yes, no)
  | e :: rest, yes, no =>
    match processRelEntry e yes no with
    | Except.error u => Except.error u
    | Except.ok (yes2, no2) => processRelations rest yes2 no2

/-- The body of jsonize's try block: walk the "relations" section, then
the "ways" section, threading the three outputs. -/
def jsonizeBody (d : Json) (wm : Idmap) (yes no : Idset) :
    Except Unit (Idmap × Idset × Idset) :=
  match jsonIndexOp d "relations" with
  | Except.error u => Except.error u
  | Except.ok ro =>
    match (match ro with
           | Json.arr entries => processRelations entries yes no
           | _ => Except.ok (yes, no)) with
    | Except.error u => Except.error u
    | Except.ok (yes2, no2) =>
      match jsonIndexOp d "ways" with
      | Except.error u => Except.error u
      | Except.ok wo =>
        match (match wo with
               | Json.arr entries => processWays entries wm
               | _ => Except.ok wm) with
        | Except.error u => Except.error u
        | Except.ok wm2 => Except.ok (wm2, yes2, no2)

/-- Everything inside jsonize's try block: reading and parsing the file
(which may itself throw, the `doc` argument) followed by the body. -/
def jsonizeRun (doc : Except Unit Json) (wm : Idmap) (yes no : Idset) :
    Except Unit (Idmap × Idset × Idset) :=
  match doc with
  | Except.error u => Except.error u
  | Except.ok d => jsonizeBody d wm yes no

/-- jsonize: on success return true with the populated outputs; the catch
block clears all three outputs and returns false. -/
def jsonize (doc : Except Unit Json) (wm : Idmap) (yes no : Idset) :
    Bool × Idmap × Idset × Idset :=
  match jsonizeRun doc wm yes no with
  | Except.ok (wm2, yes2, no2) => (true, wm2, yes2, no2)
  | Except.error _ => (false, emptyIdmap, emptyIdset, emptyIdset)

/-- main's handling of the jsonize result: on failure print a warning to
standard error and keep running (the exit call is commented out in the
source). The pair is (warning printed, run aborted). -/
def changefileCheck (no_json_err : Bool) : Option String × Bool :=
  (if no_json_err then none else some ("changefile gave error, not using\n"), false)

/-- osmium TagList::has_tag(key, value): look up the value of the first
tag with the given key and compare it with the given value. -/
def has_tag (tags : Tags) (k v : String) : Bool :=
  match (tags.find? (fun tg => tg.1 = k)).map Prod.snd with
  | some s => s = v
  | none => false

namespace RewriteHandler

/-- copy_tags (passthrough overload): clone the existing tags in order. -/
def copy_tags (tags : Tags) : Tags := tags

/-- copy_tags (override overload): clone the existing tags in order, then
add every pair of the override std::map in its (key-sorted) iteration
order; osmium's TagListBuilder::add_tag appends and never replaces. -/
def copy_tags_override (tags : Tags) (tagmap : Strmap) : Tags :=
  tags ++ tagmap

/-- The way handler for unchanged ways: same id, cloned tags, the node
reference list added unchanged. -/
def way (w : Way) : Way :=
  { id := w.id, tags := copy_tags w.tags, nodes := w.nodes }

/-- The way handler for changed ways (overload taking a tag map): same
id, tags via the override overload of copy_tags, the node reference list
added unchanged. -/
def wayOverride (w : Way) (tagmap : Strmap) : Way :=
  { id := w.id, tags := copy_tags_override w.tags tagmap, nodes := w.nodes }

/-- The node handler: same id, location and cloned tags. -/
def node (n : Node) : Node :=
  { id := n.id, tags := copy_tags n.tags, location := n.location }

/-- The relation handler: same id, cloned tags, members added unchanged. -/
def relation (r : Relation) : Relation :=
  { id := r.id, tags := copy_tags r.tags, members := r.members }

end RewriteHandler

/-- The way-member identifiers of a relation, in member order (pass 1's
reference collector). -/
def wayMemberIds (r : Relation) : List Int :=
  r.members.filterMap (fun m => if m.1 = ItemType.way then some m.2 else none)

/-- The pass-1 selection predicate: not in the deny-set, and in the
allow-set or tagged boundary=administrative. The deny test comes first,
so an id in both sets is rejected. -/
def keepRelation (no yes : Idset) (r : Relation) : Bool :=
  !no r.id && (yes r.id || has_tag r.tags ("boundary") ("administrative"))

/-- Pass 1 over the relation stream: reject deny-set ids without
descending into members; emit a relation unchanged and append its
way-member ids when the allow-set or the boundary=administrative tag
selects it. Returns (emitted relations, collected way ids). -/
def pass1 (no yes : Idset) : List Relation → List Relation × List Int
  | [] => ([], [])
  | r :: rest =>
    let acc := pass1 no yes rest
    if no r.id then acc
    else if yes r.id || has_tag r.tags ("boundary") ("administrative") then
      (r :: acc.1, wayMemberIds r ++ acc.2)
    else acc

/-- std::sort on the id vector: the ascending reordering (for integer
keys the sorted value sequence is unique, so any comparison sort agrees). -/
def sortIds (l : List Int) : List Int := List.insertionSort (· ≤ ·) l

/-- std::unique on a vector: drop each element equal to its predecessor,
keeping the logical range in front of the returned iterator. -/
def cppUnique : List Int → List Int
  | [] => []
  | [a] => [a]
  | a :: b :: rest =>
    if a = b then cppUnique (b :: rest) else a :: cppUnique (b :: rest)

/-- Sort then unique: the target list a merge-join pass consumes. -/
def prepareIds (l : List Int) : List Int := cppUnique (sortIds l)

/-- The merge-join advance loop `while (*first < id && first != last)`.
The dereference `*first` is evaluated before the `first != last` guard,
so when the cursor already sits at the one-past-the-end position the
program reads past the target list: modelled as `none`. -/
def advanceWhile (t : List Int) (x : Int) (i : Nat) : Option Nat :=
  if h : i < t.length then
    if t.get ⟨i, h⟩ < x then advanceWhile t x (i + 1) else some i
  else none
termination_by t.length - i
decreasing_by omega

/-- One merge-join step for a stream entity with id x: run the advance
loop, then test `id == *first`; on a match advance once more under the
`first != last` guard. Returns (selected, new cursor), or `none` when a
one-past-the-end dereference occurs. -/
def mergeStep (t : List Int) (x : Int) (i : Nat) : Option (Bool × Nat) :=
  match advanceWhile t x i with
  | none => none
  | some j =>
    if h : j < t.length then
      if x = t.get ⟨j, h⟩ then some (true, if j ≠ t.length then j + 1 else j)
      else some (false, j)
    else none

/-- The sorted-merge filter over a stream, carrying the cursor: keep
exactly the entities `mergeStep` selects, in stream order. -/
def mergeFilterAux {α : Type} (getId : α → Int) (t : List Int) :
    Nat → List α → Option (List α)
  | _, [] => some []
  | i, a :: rest =>
    match mergeStep t (getId a) i with
    | none => none
    | some (sel, i2) =>
      match mergeFilterAux getId t i2 rest with
      | none => none
      | some out => some (if sel then a :: out else out)

/-- The sorted-merge filter from cursor position zero. -/
def mergeFilter {α : Type} (getId : α → Int) (t : List Int) (s : List α) :
    Option (List α) :=
  mergeFilterAux getId t 0 s

/-- Pass 2's per-match emission: look the way id up in the override
table; emit through the override handler when present, the passthrough
handler otherwise. -/
def emitWay (wm : Idmap) (w : Way) : Way :=
  match wm w.id with
  | none => RewriteHandler.way w
  | some tagmap => RewriteHandler.wayOverride w tagmap

/-- Pass 2 over the way stream: merge-join against the target list; on a
match, emit via the override dispatch and append the way's node refs to
the node-id list. Returns (emitted ways, collected node ids), or `none`
when the merge-join dereferences past the target list. -/
def pass2Aux (wm : Idmap) (t : List Int) :
    Nat → List Way → Option (List Way × List Int)
  | _, [] => some ([], [])
  | i, w :: rest =>
    match mergeStep t w.id i with
    | none => none
    | some (sel, i2) =>
      match pass2Aux wm t i2 rest with
      | none => none
      | some (outs, nids) =>
        if sel then some (emitWay wm w :: outs, w.nodes ++ nids)
        else some (outs, nids)

/-- Pass 2 from cursor position zero. -/
def pass2 (wm : Idmap) (t : List Int) (ways : List Way) :
    Option (List Way × List Int) :=
  pass2Aux wm t 0 ways

/-- Pass 3 over the node stream: std::copy_if with the same merge-join
predicate, emitting matched nodes unchanged. -/
def pass3 (t : List Int) (nodes : List Node) : Option (List Node) :=
  mergeFilter Node.id t nodes

/-- A bounding box, coordinates in integral degrees (the program only
ever uses the integral full-range box). -/
structure Box : Type where
  left : Int
  bottom : Int
  right : Int
  top : Int
deriving DecidableEq

/-- The output file header: generator string plus bounding boxes. -/
structure Header : Type where
  generator : String
  boxes : List Box
deriving DecidableEq

/-- The header main writes: generator "osmborder_filter" and one box
covering the full valid coordinate range. -/
def osmborderHeader : Header :=
  { generator := "osmborder_filter", boxes := [⟨-180, -90, 180, 90⟩] }

/-- An entity written to the output sink. -/
inductive OutEntity : Type where
  | rel (r : Relation) : OutEntity
  | way (w : Way) : OutEntity
  | node (n : Node) : OutEntity
deriving DecidableEq

/-- The three-pass pipeline of main: pass 1 over relations; sort and
unique the way ids; pass 2 over ways; sort and unique the node ids;
pass 3 over nodes. Produces the header and the output entities in the
order written, or `none` when a merge-join dereferences past a target
list. -/
def runPipeline (yes no : Idset) (wm : Idmap)
    (rels : List Relation) (ways : List Way) (nodes : List Node) :
    Option (Header × List OutEntity) :=
  let p1 := pass1 no yes rels
  match pass2 wm (prepareIds p1.2) ways with
  | none => none
  | some (outWays, nodeIds) =>
    match pass3 (prepareIds nodeIds) nodes with
    | none => none
    | some outNodes =>
      some (osmborderHeader,
        p1.1.map OutEntity.rel ++ outWays.map OutEntity.way ++
          outNodes.map OutEntity.node)

/-! ## Helper lemmas -/

theorem advanceWhile_some {t : List Int} {x : Int} :
    ∀ (i j : Nat), advanceWhile t x i = some j →
    i ≤ j ∧ j < t.length ∧ ¬ t.getD j 0 < x ∧
      ∀ k, i ≤ k → k < j → t.getD k 0 < x := by
  intro i
  induction i using advanceWhile.induct t x with
  | case1 i hi hlt ih =>
    intro j h
    rw [advanceWhile, dif_pos hi, if_pos hlt] at h
    obtain ⟨h1, h2, h3, h4⟩ := ih j h
    refine ⟨by omega, h2, h3, ?_⟩
    intro k hk1 hk2
    rcases Nat.eq_or_lt_of_le hk1 with rfl | hk1a
    · simpa [List.getD_eq_getElem, hi] using hlt
    · exact h4 k hk1a hk2
  | case2 i hi hlt =>
    intro j h
    rw [advanceWhile, dif_pos hi, if_neg hlt] at h
    cases h
    refine ⟨Nat.le_refl _, hi, ?_, ?_⟩
    · simpa [List.getD_eq_getElem, hi] using hlt
    · intro k hk1 hk2; omega
  | case3 i hi =>
    intro j h
    rw [advanceWhile, dif_neg hi] at h
    cases h

theorem getD_zero_eq_get (t : List Int) (j : Nat) (h : j < t.length) :
    t.getD j 0 = t.get ⟨j, h⟩ := by
  rw [List.getD_eq_getElem _ _ h]
  rfl

theorem getD_mem (t : List Int) (j : Nat) (h : j < t.length) :
    t.getD j 0 ∈ t := by
  rw [getD_zero_eq_get t j h]
  exact t.get_mem j h

theorem pairwise_getD {t : List Int} (ht : t.Pairwise (· < ·)) {j k : Nat}
    (hj : j < t.length) (hk : k < t.length) (hjk : j < k) :
    t.getD j 0 < t.getD k 0 := by
  rw [List.getD_eq_getElem _ _ hj, List.getD_eq_getElem _ _ hk]
  exact List.pairwise_iff_getElem.mp ht j k hj hk hjk

theorem mem_getD {t : List Int} {x : Int} (h : x ∈ t) :
    ∃ k, k < t.length ∧ t.getD k 0 = x := by
  obtain ⟨k, hk, hkx⟩ := List.mem_iff_getElem.mp h
  exact ⟨k, hk, by rw [List.getD_eq_getElem _ _ hk]; exact hkx⟩

theorem mergeStep_some {t : List Int} (ht : t.Pairwise (· < ·)) {x : Int} {i : Nat}
    {sel : Bool} {i2 : Nat}
    (hpre : ∀ k, k < i → k < t.length → t.getD k 0 < x)
    (h : mergeStep t x i = some (sel, i2)) :
    (sel = true ↔ x ∈ t) ∧ (∀ k, k < i2 → k < t.length → t.getD k 0 ≤ x) := by
  cases ha : advanceWhile t x i with
  | none => simp [mergeStep, ha] at h
  | some j =>
    simp only [mergeStep, ha] at h
    obtain ⟨hij, hjlen, hge, hbelow⟩ := advanceWhile_some i j ha
    rw [dif_pos hjlen] at h
    rw [← getD_zero_eq_get t j hjlen] at h
    have hall : ∀ k, k < j → k < t.length → t.getD k 0 < x := by
      intro k hk hk2
      rcases Nat.lt_or_ge k i with hki | hki
      · exact hpre k hki hk2
      · exact hbelow k hki hk
    by_cases hx : x = t.getD j 0
    · rw [if_pos hx] at h
      have hsel : sel = true ∧ i2 = (if j ≠ t.length then j + 1 else j) := by
        cases h; exact ⟨rfl, rfl⟩
      obtain ⟨rfl, hi2⟩ := hsel
      subst hi2
      constructor
      · exact ⟨fun _ => hx ▸ getD_mem t j hjlen, fun _ => rfl⟩
      · intro k hk hk2
        rw [if_pos (Nat.ne_of_lt hjlen)] at hk
        rcases Nat.lt_or_ge k j with hkj | hkj
        · exact le_of_lt (hall k hkj hk2)
        · have hkj2 : k = j := by omega
          subst hkj2
          omega
    · rw [if_neg hx] at h
      have hsel : sel = false ∧ i2 = j := by
        cases h; exact ⟨rfl, rfl⟩
      obtain ⟨h5, h6⟩ := hsel
      have hnot : ¬ x ∈ t := by
        intro hmem
        obtain ⟨k, hk, hkx⟩ := mem_getD hmem
        have hjx : x < t.getD j 0 := by omega
        rcases Nat.lt_or_ge k j with hkj | hkj
        · have := hall k hkj hk
          omega
        · rcases Nat.eq_or_lt_of_le hkj with rfl | hkj2
          · omega
          · have := pairwise_getD ht hjlen hk hkj2
            omega
      constructor
      · rw [h5]
        exact ⟨(fun hft => nomatch hft), (fun hmem => absurd hmem hnot)⟩
      · intro k hk hk2
        rw [h6] at hk
        exact le_of_lt (hall k hk hk2)

theorem mergeFilterAux_spec {α : Type} (getId : α → Int) (t : List Int)
    (ht : t.Pairwise (· < ·)) :
    ∀ (s : List α) (i : Nat),
      (s.map getId).Pairwise (· < ·) →
      (∀ k, k < i → k < t.length → ∀ a ∈ s, t.getD k 0 < getId a) →
      ∀ out, mergeFilterAux getId t i s = some out →
      out = s.filter (fun a => decide (getId a ∈ t)) := by
  intro s
  induction s with
  | nil => intro i hs hpre out hrun; cases hrun; simp
  | cons a rest ih =>
    intro i hs hpre out hrun
    rw [List.map_cons, List.pairwise_cons] at hs
    obtain ⟨hhead, htail⟩ := hs
    have hlt : ∀ b ∈ rest, getId a < getId b :=
      fun b hb => hhead (getId b) (List.mem_map_of_mem getId hb)
    cases hms : mergeStep t (getId a) i with
    | none => simp [mergeFilterAux, hms] at hrun
    | some p =>
      obtain ⟨sel, i2⟩ := p
      have hpre1 : ∀ k, k < i → k < t.length → t.getD k 0 < getId a :=
        fun k h1 h2 => hpre k h1 h2 a (List.mem_cons_self a rest)
      obtain ⟨hselm, hpost⟩ := mergeStep_some ht hpre1 hms
      cases hrec : mergeFilterAux getId t i2 rest with
      | none => simp [mergeFilterAux, hms, hrec] at hrun
      | some out2 =>
        simp only [mergeFilterAux, hms, hrec] at hrun
        have hout2 : out2 = rest.filter (fun b => decide (getId b ∈ t)) := by
          refine ih i2 htail ?_ out2 hrec
          intro k h1 h2 b hb
          exact lt_of_le_of_lt (hpost k h1 h2) (hlt b hb)
        cases hrun
        rw [List.filter_cons]
        by_cases hmem : getId a ∈ t
        · rw [hselm.mpr hmem]
          simp [hmem, hout2]
        · have hsf : sel = false := by
            cases hsel2 : sel
            · rfl
            · exact absurd (hselm.mp hsel2) hmem
          rw [hsf]
          simp [hmem, hout2]

theorem cppUnique_cons (a : Int) (l : List Int) :
    ∃ tl, cppUnique (a :: l) = a :: tl := by
  induction l generalizing a with
  | nil => exact ⟨[], rfl⟩
  | cons b rest ih =>
    by_cases hab : a = b
    · obtain ⟨tl, htl⟩ := ih b
      exact ⟨tl, by rw [cppUnique, if_pos hab, htl, hab]⟩
    · exact ⟨cppUnique (b :: rest), by rw [cppUnique, if_neg hab]⟩

theorem cppUnique_chain {l : List Int} (hl : l.Chain' (· ≤ ·)) :
    (cppUnique l).Chain' (· < ·) := by
  induction l with
  | nil => simp [cppUnique]
  | cons a rest ih =>
    cases rest with
    | nil => simp [cppUnique]
    | cons b rest2 =>
      obtain ⟨hab, htail⟩ := List.chain'_cons.mp hl
      by_cases heq : a = b
      · rw [cppUnique, if_pos heq]
        exact ih htail
      · rw [cppUnique, if_neg heq]
        obtain ⟨tl, htl⟩ := cppUnique_cons b rest2
        rw [htl]
        rw [htl] at ih
        exact List.chain'_cons.mpr ⟨lt_of_le_of_ne hab heq, ih htail⟩

theorem prepareIds_pairwise (l : List Int) :
    (prepareIds l).Pairwise (· < ·) := by
  have hs : (sortIds l).Chain' (· ≤ ·) := by
    rw [List.chain'_iff_pairwise]
    exact List.sorted_insertionSort (· ≤ ·) l
  exact List.chain'_iff_pairwise.mp (cppUnique_chain hs)


/-- Strict key-sortedness invariant of the std::map model. -/
def StrSorted (m : Strmap) : Prop := m.Pairwise (fun p q => p.1 < q.1)

theorem mem_mapInsert_weak {m : Strmap} {k v : String} {q : String × String}
    (hq : q ∈ mapInsert m k v) : q = (k, v) ∨ q ∈ m := by
  induction m with
  | nil =>
    rw [mapInsert] at hq
    rcases List.mem_singleton.mp hq with rfl
    exact Or.inl rfl
  | cons p rest ih =>
    obtain ⟨k1, v1⟩ := p
    rw [mapInsert] at hq
    by_cases h1 : k < k1
    · rw [if_pos h1] at hq
      rcases List.mem_cons.mp hq with rfl | hq2
      · exact Or.inl rfl
      · exact Or.inr hq2
    · rw [if_neg h1] at hq
      by_cases h2 : k = k1
      · rw [if_pos h2] at hq
        rcases List.mem_cons.mp hq with rfl | hq2
        · exact Or.inl rfl
        · exact Or.inr (List.mem_cons_of_mem _ hq2)
      · rw [if_neg h2] at hq
        rcases List.mem_cons.mp hq with rfl | hq2
        · exact Or.inr (List.mem_cons_self _ _)
        · rcases ih hq2 with h | h
          · exact Or.inl h
          · exact Or.inr (List.mem_cons_of_mem _ h)

theorem strSorted_mapInsert {m : Strmap} (hm : StrSorted m) (k v : String) :
    StrSorted (mapInsert m k v) := by
  induction m with
  | nil => exact List.pairwise_singleton _ _
  | cons p rest ih =>
    obtain ⟨k1, v1⟩ := p
    obtain ⟨hhead, htail⟩ := List.pairwise_cons.mp hm
    by_cases h1 : k < k1
    · rw [mapInsert, if_pos h1]
      refine List.pairwise_cons.mpr ⟨?_, hm⟩
      intro q hq
      rcases List.mem_cons.mp hq with rfl | hq2
      · exact h1
      · exact lt_trans h1 (hhead q hq2)
    · rw [mapInsert, if_neg h1]
      by_cases h2 : k = k1
      · rw [if_pos h2]
        refine List.pairwise_cons.mpr ⟨?_, htail⟩
        intro q hq
        rw [h2]
        exact hhead q hq
      · rw [if_neg h2]
        refine List.pairwise_cons.mpr ⟨?_, ih htail⟩
        intro q hq
        have hk1k : k1 < k := by
          rcases lt_trichotomy k k1 with h | h | h
          · exact absurd h h1
          · exact absurd h h2
          · exact h
        rcases mem_mapInsert_weak hq with rfl | hq2
        · exact hk1k
        · exact hhead q hq2

theorem mem_mapInsert {m : Strmap} (hm : StrSorted m) (k v a b : String) :
    (a, b) ∈ mapInsert m k v ↔ ((a = k ∧ b = v) ∨ ((a, b) ∈ m ∧ a ≠ k)) := by
  induction m with
  | nil => simp [mapInsert, Prod.mk.injEq]
  | cons p rest ih =>
    obtain ⟨k1, v1⟩ := p
    obtain ⟨hhead, htail⟩ := List.pairwise_cons.mp hm
    have hmemne : (a, b) ∈ (k1, v1) :: rest → k1 ≤ a := by
      intro hq
      rcases List.mem_cons.mp hq with heq | hq2
      · cases heq
        exact le_refl _
      · exact le_of_lt (hhead (a, b) hq2)
    rw [mapInsert]
    by_cases h1 : k < k1
    · rw [if_pos h1]
      constructor
      · intro hq
        rcases List.mem_cons.mp hq with heq | hq2
        · cases heq
          exact Or.inl ⟨rfl, rfl⟩
        · refine Or.inr ⟨hq2, ?_⟩
          have hk1a := hmemne hq2
          intro hak
          rw [hak] at hk1a
          exact absurd h1 (not_lt.mpr hk1a)
      · intro hq
        rcases hq with ⟨rfl, rfl⟩ | ⟨hq2, _⟩
        · exact List.mem_cons_self _ _
        · exact List.mem_cons_of_mem _ hq2
    · rw [if_neg h1]
      by_cases h2 : k = k1
      · rw [if_pos h2]
        subst h2
        constructor
        · intro hq
          rcases List.mem_cons.mp hq with heq | hq2
          · cases heq
            exact Or.inl ⟨rfl, rfl⟩
          · refine Or.inr ⟨List.mem_cons_of_mem _ hq2, ?_⟩
            have hlt2 := hhead (a, b) hq2
            intro hak
            rw [hak] at hlt2
            exact lt_irrefl _ hlt2
        · intro hq
          rcases hq with ⟨rfl, rfl⟩ | ⟨hq2, hne⟩
          · exact List.mem_cons_self _ _
          · rcases List.mem_cons.mp hq2 with heq | hq3
            · cases heq
              exact absurd rfl hne
            · exact List.mem_cons_of_mem _ hq3
      · rw [if_neg h2]
        have hk1k : k1 < k := by
          rcases lt_trichotomy k k1 with h | h | h
          · exact absurd h h1
          · exact absurd h h2
          · exact h
        constructor
        · intro hq
          rcases List.mem_cons.mp hq with heq | hq2
          · cases heq
            exact Or.inr ⟨List.mem_cons_self _ _, ne_of_lt hk1k⟩
          · rcases (ih htail).mp hq2 with h | ⟨hmem, hne⟩
            · exact Or.inl h
            · exact Or.inr ⟨List.mem_cons_of_mem _ hmem, hne⟩
        · intro hq
          rcases hq with ⟨rfl, rfl⟩ | ⟨hq2, hne⟩
          · exact List.mem_cons_of_mem _ ((ih htail).mpr (Or.inl ⟨rfl, rfl⟩))
          · rcases List.mem_cons.mp hq2 with heq | hq3
            · rw [heq]
              exact List.mem_cons_self _ _
            · exact List.mem_cons_of_mem _ ((ih htail).mpr (Or.inr ⟨hq3, hne⟩))


theorem stringFieldKeys_subset {fields : List (String × Json)} {a : String}
    (h : a ∈ stringFieldKeys fields) : a ∈ fields.map Prod.fst := by
  obtain ⟨kv, hkv, heq⟩ := List.mem_filterMap.mp h
  refine List.mem_map.mpr ⟨kv, hkv, ?_⟩
  obtain ⟨k, j⟩ := kv
  cases j with
  | str s =>
    by_cases hko : k = "osm_id"
    · simp [hko] at heq
    · simp [hko] at heq
      exact heq
  | null => simp at heq
  | bool b2 => simp at heq
  | num n => simp at heq
  | arr es => simp at heq
  | obj fs => simp at heq

theorem mem_map_fst {fields : List (String × Json)} {a : String} {j : Json}
    (h : (a, j) ∈ fields) : a ∈ fields.map Prod.fst :=
  List.mem_map.mpr ⟨(a, j), h, rfl⟩

theorem smapFold_mem (a b : String) :
    ∀ (fields : List (String × Json)) (m : Strmap),
      (fields.map Prod.fst).Nodup → StrSorted m →
      ((a, b) ∈ smapFold m fields ↔
        (((a, b) ∈ m ∧ a ∉ stringFieldKeys fields) ∨
         (a ≠ "osm_id" ∧ (a, Json.str b) ∈ fields))) := by
  intro fields
  induction fields with
  | nil =>
    intro m hnd hm
    simp [smapFold, stringFieldKeys]
  | cons kv rest ih =>
    obtain ⟨k, j⟩ := kv
    intro m hnd hm
    rw [List.map_cons, List.nodup_cons] at hnd
    obtain ⟨hknotin, hndrest⟩ := hnd
    by_cases hstr : ∃ s, j = Json.str s
    · obtain ⟨s, rfl⟩ := hstr
      by_cases hko : k = "osm_id"
      · have hunf : smapFold m ((k, Json.str s) :: rest) =
            smapFold (if k = "osm_id" then m else mapInsert m k s) rest := rfl
        rw [if_pos hko] at hunf
        have hkeys : stringFieldKeys ((k, Json.str s) :: rest) = stringFieldKeys rest := by
          simp [stringFieldKeys, hko]
        rw [hunf, ih m hndrest hm, hkeys]
        simp only [List.mem_cons, Prod.mk.injEq, Json.str.injEq]
        have h3 : a = k → a = "osm_id" := fun h => h.trans hko
        tauto
      · have hunf : smapFold m ((k, Json.str s) :: rest) =
            smapFold (if k = "osm_id" then m else mapInsert m k s) rest := rfl
        rw [if_neg hko] at hunf
        have hkeys : stringFieldKeys ((k, Json.str s) :: rest) = k :: stringFieldKeys rest := by
          simp [stringFieldKeys, hko]
        rw [hunf, ih (mapInsert m k s) hndrest (strSorted_mapInsert hm k s),
          mem_mapInsert hm k s a b, hkeys]
        simp only [List.mem_cons, Prod.mk.injEq, Json.str.injEq]
        have h1 : a ∈ stringFieldKeys rest → a ≠ k := by
          intro h hak
          exact hknotin (hak ▸ stringFieldKeys_subset h)
        have h2 : (a, Json.str b) ∈ rest → a ≠ k := by
          intro h hak
          exact hknotin (hak ▸ mem_map_fst h)
        have h3 : a = k → a ≠ "osm_id" := fun h => h ▸ hko
        tauto
    · have hunf : smapFold m ((k, j) :: rest) = smapFold m rest := by
        cases j with
        | str s => exact absurd ⟨s, rfl⟩ hstr
        | null => rfl
        | bool b2 => rfl
        | num n => rfl
        | arr es => rfl
        | obj fs => rfl
      have hkeys : stringFieldKeys ((k, j) :: rest) = stringFieldKeys rest := by
        cases j with
        | str s => exact absurd ⟨s, rfl⟩ hstr
        | null => rfl
        | bool b2 => rfl
        | num n => rfl
        | arr es => rfl
        | obj fs => rfl
      have hmem2 : ((a, Json.str b) ∈ (k, j) :: rest) ↔ (a, Json.str b) ∈ rest := by
        rw [List.mem_cons]
        constructor
        · rintro (heq | h)
          · exact absurd ⟨b, (congrArg Prod.snd heq).symm⟩ hstr
          · exact h
        · exact Or.inr
      rw [hunf, ih m hndrest hm, hkeys, hmem2]


theorem pass2Aux_eq (wm : Idmap) (t : List Int) :
    ∀ (s : List Way) (i : Nat),
      pass2Aux wm t i s =
        (mergeFilterAux Way.id t i s).map
          (fun sel => (sel.map (emitWay wm), sel.flatMap Way.nodes)) := by
  intro s
  induction s with
  | nil => intro i; rfl
  | cons w rest ih =>
    intro i
    cases hms : mergeStep t w.id i with
    | none => simp [pass2Aux, mergeFilterAux, hms]
    | some p =>
      obtain ⟨sel, i2⟩ := p
      cases hrec : mergeFilterAux Way.id t i2 rest with
      | none => simp [pass2Aux, mergeFilterAux, hms, hrec, ih]
      | some out2 =>
        simp only [pass2Aux, mergeFilterAux, hms, hrec, ih i2, Option.map_some']
        cases sel
        · simp
        · simp


/-! ## Claim theorems -/

/-- Claim C1 (amended): for every strictly ascending, duplicate-free
target list and every entity stream with strictly ascending identifiers,
whenever the sorted-merge filter of pass 2 (ways) or pass 3 (nodes)
completes without dereferencing past the end of the target list, it
selects exactly the entities whose identifier is a member of the target
list, in the stream's original relative order (pass 2 emits each
selected way through the override dispatch). -/
theorem mergeFilter_selects_intersection :
    ∀ (t : List Int), t.Pairwise (· < ·) →
      (∀ (wm : Idmap) (ways : List Way) (outs : List Way) (nids : List Int),
        (ways.map Way.id).Pairwise (· < ·) →
        pass2 wm t ways = some (outs, nids) →
        outs = (ways.filter (fun w => decide (w.id ∈ t))).map (emitWay wm)) ∧
      (∀ (nodes : List Node) (out : List Node),
        (nodes.map Node.id).Pairwise (· < ·) →
        pass3 t nodes = some out →
        out = nodes.filter (fun nd => decide (nd.id ∈ t))) := by
  intro t ht
  constructor
  · intro wm ways outs nids hsort hrun
    rw [pass2, pass2Aux_eq] at hrun
    cases hmf : mergeFilterAux Way.id t 0 ways with
    | none => rw [hmf] at hrun; cases hrun
    | some sel =>
      rw [hmf, Option.map_some'] at hrun
      have hsel : sel = ways.filter (fun w => decide (w.id ∈ t)) :=
        mergeFilterAux_spec Way.id t ht ways 0 hsort
          (by intro k hk h2 a ha; omega) sel hmf
      cases hrun
      rw [hsel]
  · intro nodes out hsort hrun
    exact mergeFilterAux_spec Node.id t ht nodes 0 hsort
      (by intro k hk h2 a ha; omega) out hrun

/-- Witness for the C1 theorem at a concrete input: target list `[2, 5]`,
node stream with ids 1, 2, 3; the run completes and selects node 2. -/
theorem mergeFilter_selects_intersection_witness :
    (([2, 5] : List Int).Pairwise (· < ·)) ∧
    ([⟨2, [], (0, 0)⟩] : List Node) =
      ([⟨1, [], (0, 0)⟩, ⟨2, [], (0, 0)⟩, ⟨3, [], (0, 0)⟩] : List Node).filter
        (fun nd => decide (nd.id ∈ ([2, 5] : List Int))) :=
  ⟨by decide, (mergeFilter_selects_intersection [2, 5] (by decide)).2
      [⟨1, [], (0, 0)⟩, ⟨2, [], (0, 0)⟩, ⟨3, [], (0, 0)⟩] [⟨2, [], (0, 0)⟩]
      (by decide)
      (by simp [pass3, mergeFilter, mergeFilterAux, mergeStep, advanceWhile])⟩

/-- Claim C1 counterexample: the empty target list is sorted and
duplicate-free and the one-node stream is sorted with unique ids, yet
pass 3 does not select nothing as the unamended claim requires: the
merge-join dereferences the one-past-the-end position of the target
list (modelled as `none`), so its result is not the empty selection. -/
theorem pass3_empty_target_counterexample :
    pass3 [] [⟨1, [], (0, 0)⟩] ≠ some [] := by
  simp [pass3, mergeFilter, mergeFilterAux, mergeStep, advanceWhile]

/-- Claim C2: with an empty target list, and likewise when a non-empty
target list has been exhausted, the merge-join comparison dereferences
the one-past-the-end position of the target list (modelled as `none`)
instead of being guarded and selecting nothing: in the source the
condition is written `*first < id && first != last`, so `*first` is
evaluated before the bounds test. -/
theorem mergeFilter_boundary_deref :
    mergeFilter (fun x : Int => x) [] [1] = none ∧
    mergeFilter (fun x : Int => x) [1] [1, 2] = none := by
  refine ⟨?_, ?_⟩ <;> simp [mergeFilter, mergeFilterAux, mergeStep, advanceWhile]

/-- Claim C3: at the spec's own example (existing tags name=Y, highway=Z;
override name=X) the override overload of copy_tags appends the override
pair after the existing tags, so the emitted tag list is
[name=Y, highway=Z, name=X] — the colliding key name is not replaced,
contradicting both the claim and the source comment "copy existing and
overwrite with supplied". -/
theorem copy_tags_override_appends :
    (RewriteHandler.wayOverride ⟨42, [("name", "Y"), ("highway", "Z")], [1, 2, 3]⟩
        [("name", "X")]).tags
      = [("name", "Y"), ("highway", "Z"), ("name", "X")] ∧
    (RewriteHandler.wayOverride ⟨42, [("name", "Y"), ("highway", "Z")], [1, 2, 3]⟩
        [("name", "X")]).tags
      ≠ [("highway", "Z"), ("name", "X")] := by
  exact ⟨rfl, by decide⟩

/-- Claim C4: pass 1 emits exactly the relations whose id passes
keepRelation (not in the deny-set, and in the allow-set or tagged
boundary=administrative), collecting way-member ids exactly from the
emitted relations; in particular a relation whose id is in the deny-set
is never emitted, even when it is also in the allow-set. -/
theorem pass1_selects_iff :
    (∀ (no yes : Idset) (rels : List Relation),
      pass1 no yes rels =
        (rels.filter (keepRelation no yes),
         (rels.filter (keepRelation no yes)).flatMap wayMemberIds)) ∧
    (∀ (no yes : Idset) (rels : List Relation) (r : Relation),
      no r.id = true → r ∉ (pass1 no yes rels).1) := by
  have hmain : ∀ (no yes : Idset) (rels : List Relation),
      pass1 no yes rels =
        (rels.filter (keepRelation no yes),
         (rels.filter (keepRelation no yes)).flatMap wayMemberIds) := by
    intro no yes rels
    induction rels with
    | nil => rfl
    | cons r rest ih =>
      by_cases hno : no r.id
      · simp [pass1, keepRelation, hno, ih, List.filter_cons]
      · by_cases hsel : yes r.id || has_tag r.tags ("boundary") ("administrative")
        · simp [pass1, keepRelation, hno, hsel, ih, List.filter_cons]
        · simp [pass1, keepRelation, hno, hsel, ih, List.filter_cons]
  refine ⟨hmain, ?_⟩
  intro no yes rels r hno hmem
  rw [hmain] at hmem
  have hk := (List.mem_filter.mp hmem).2
  rw [keepRelation, hno] at hk
  simp at hk

/-- Witness for C4: relation 7 is in both the allow-set and the
deny-set, and is not emitted. -/
theorem pass1_selects_iff_witness :
    ((fun x : Int => decide (x = 7)) 7 = true) ∧
    (⟨7, [("boundary", "administrative")], [(ItemType.way, 3)]⟩ : Relation) ∉
      (pass1 (fun x : Int => decide (x = 7)) (fun x : Int => decide (x = 7))
        [⟨7, [("boundary", "administrative")], [(ItemType.way, 3)]⟩]).1 :=
  ⟨by decide, pass1_selects_iff.2 (fun x : Int => decide (x = 7))
      (fun x : Int => decide (x = 7))
      [⟨7, [("boundary", "administrative")], [(ItemType.way, 3)]⟩]
      ⟨7, [("boundary", "administrative")], [(ItemType.way, 3)]⟩ (by decide)⟩

/-- Claim C5: whenever the jsonize try-block raises (unreadable file,
malformed document, or any structural exception while walking it), the
catch block leaves all three outputs empty and returns false, and main
then prints a warning and continues the run instead of aborting. -/
theorem jsonize_exception_clears_and_run_continues :
    ∀ (doc : Except Unit Json) (wm : Idmap) (yes no : Idset),
      jsonizeRun doc wm yes no = Except.error () →
      jsonize doc wm yes no = (false, emptyIdmap, emptyIdset, emptyIdset) ∧
      changefileCheck false = (some ("changefile gave error, not using\n"), false) := by
  intro doc wm yes no h
  refine ⟨?_, rfl⟩
  rw [jsonize, h]

/-- Witness for C5: an unreadable or unparsable document (the read
itself throws) clears previously populated outputs. -/
theorem jsonize_exception_clears_witness :
    jsonizeRun (Except.error ()) emptyIdmap emptyIdset emptyIdset = Except.error () ∧
    jsonize (Except.error ()) emptyIdmap emptyIdset emptyIdset =
      (false, emptyIdmap, emptyIdset, emptyIdset) :=
  ⟨rfl, (jsonize_exception_clears_and_run_continues (Except.error ()) emptyIdmap
      emptyIdset emptyIdset rfl).1⟩

/-- Claim C6: the target identifier list consumed by a merge-join pass —
prepareIds of the collected ids, exactly what runPipeline feeds pass 2
(way ids from pass 1) and pass 3 (node ids from pass 2) — is strictly
ascending and duplicate-free. -/
theorem prepareIds_sorted_dedup :
    ∀ (l : List Int), (prepareIds l).Pairwise (· < ·) ∧ (prepareIds l).Nodup := by
  intro l
  have h := prepareIds_pairwise l
  exact ⟨h, h.imp (fun hlt => ne_of_lt hlt)⟩

/-- Claim C7: the override way handler changes only tags: the emitted
way keeps the input way's identifier and ordered node reference list. -/
theorem wayOverride_preserves_structure :
    ∀ (w : Way) (tagmap : Strmap),
      (RewriteHandler.wayOverride w tagmap).id = w.id ∧
      (RewriteHandler.wayOverride w tagmap).nodes = w.nodes :=
  fun _ _ => ⟨rfl, rfl⟩

/-- Claim C8: a "ways" entry with a numeric osm_id field stores, for that
way id, exactly the entry's other string-valued fields keyed by field
name; non-string fields are silently skipped. -/
theorem waysEntry_overrides_exactly_string_fields :
    ∀ (fields : List (String × Json)) (n : Int) (wm : Idmap),
      (fields.map Prod.fst).Nodup →
      jsonFind fields "osm_id" = some (Json.num n) →
      processWayEntry (Json.obj fields) wm =
        Except.ok (insertIdmap wm n (smapOfFields fields)) ∧
      (∀ (k v : String),
        ((k, v) ∈ smapOfFields fields ↔ (k ≠ "osm_id" ∧ (k, Json.str v) ∈ fields))) := by
  intro fields n wm hnd hfind
  constructor
  · simp [processWayEntry, hfind, getLong]
  · intro k v
    have h := smapFold_mem k v fields [] hnd List.Pairwise.nil
    simpa [smapOfFields] using h

/-- Witness for C8 at a concrete entry. -/
theorem waysEntry_overrides_witness :
    (([("name", Json.str "X"), ("osm_id", Json.num 42)].map Prod.fst).Nodup) ∧
    processWayEntry (Json.obj [("name", Json.str "X"), ("osm_id", Json.num 42)]) emptyIdmap =
      Except.ok (insertIdmap emptyIdmap 42
        (smapOfFields [("name", Json.str "X"), ("osm_id", Json.num 42)])) :=
  ⟨by decide, (waysEntry_overrides_exactly_string_fields
      [("name", Json.str "X"), ("osm_id", Json.num 42)] 42 emptyIdmap
      (by decide) rfl).1⟩

/-- Claim C9: on an empty input dataset (no relations, ways or nodes)
the pipeline succeeds and produces zero output entities together with
the header carrying generator "osmborder_filter" and the full-range
bounding box. -/
theorem empty_input_valid_header :
    ∀ (yes no : Idset) (wm : Idmap),
      runPipeline yes no wm [] [] [] =
        some ({ generator := "osmborder_filter",
                boxes := [⟨-180, -90, 180, 90⟩] }, ([] : List OutEntity)) :=
  fun _ _ _ => rfl

/-- Claim C10: when two "ways" entries carry the same osm_id, the
resulting override table maps that id to the string fields of the later
entry only — the later assignment wholly replaces the earlier record. -/
theorem waymap_duplicate_osm_id_last_wins :
    ∀ (wm : Idmap) (f1 f2 : List (String × Json)) (n : Int),
      jsonFind f1 "osm_id" = some (Json.num n) →
      jsonFind f2 "osm_id" = some (Json.num n) →
      processWays [Json.obj f1, Json.obj f2] wm =
        Except.ok (insertIdmap wm n (smapOfFields f2)) := by
  intro wm f1 f2 n h1 h2
  simp only [processWays, processWayEntry, h1, h2, getLong]
  congr 1
  funext x
  by_cases hx : x = n
  · simp [insertIdmap, hx]
  · simp [insertIdmap, hx]

/-- Witness for C10 at two concrete entries sharing osm_id 42. -/
theorem waymap_duplicate_witness :
    processWays [Json.obj [("osm_id", Json.num 42), ("name", Json.str "A")],
        Json.obj [("osm_id", Json.num 42), ("ref", Json.str "B")]] emptyIdmap =
      Except.ok (insertIdmap emptyIdmap 42
        (smapOfFields [("osm_id", Json.num 42), ("ref", Json.str "B")])) :=
  waymap_duplicate_osm_id_last_wins emptyIdmap
    [("osm_id", Json.num 42), ("name", Json.str "A")]
    [("osm_id", Json.num 42), ("ref", Json.str "B")] 42 rfl rfl


end Osmborder
